import Mathlib

/-!
Verification of the hetio repository's abbreviation engine
(`hetio/abbreviation.py`) and metapath-to-cypher compiler
(`hetio/neo4j.py`) against its natural-language specification.

Python strings are modelled as Lean `String`s; inside the abbreviation
algorithm we work on their underlying character lists (`String.data`)
so that list lemmas apply directly.  Python dictionaries are modelled
as insertion-ordered association lists, matching CPython's ordered
`dict` semantics.  The unbounded `while` loop of `find_abbrevs` is
modelled with explicit fuel; the fuel bound `fuelBound` dominates the
loop's strictly decreasing measure, so the fuelled function returns
`some` exactly when the Python loop terminates and `none` exactly when
it runs forever.
-/

namespace Hetio

/-- Python strings, viewed as their character lists. -/
abbrev Name := List Char

/-- Python `str.lower()` (ASCII model, matching the kind names used by hetio). -/
def lowerName (k : Name) : Name := k.map Char.toLower

/-- Number of occurrences of value `v` among the values of the mapping `m`.
Corresponds to `collections.Counter(kind_to_abbrev.values())[v]` in
`get_duplicates` (abbreviation.py line 50). -/
def countVal (m : List (Name × Name)) (v : Name) : Nat := (m.map Prod.snd).count v

/-- Membership of `v` in `get_duplicates(kind_to_abbrev.values())`
(abbreviation.py lines 48-51): a value is duplicated when it occurs at least
twice. -/
def isDupVal (m : List (Name × Name)) (v : Name) : Bool := decide (2 ≤ countVal m v)

/-- The `while duplicates:` guard of `find_abbrevs` (line 60): some value of the
mapping is duplicated. -/
def dupExists (m : List (Name × Name)) : Bool := m.any (fun p => isDupVal m p.2)

/-- One token extension, `abbrev += kind[len(abbrev)].lower()`
(abbreviation.py line 63). -/
def extendAbbrev (k a : Name) : Name := a ++ [(k.getD a.length ' ').toLower]

/-- One full pass of the `for kind, abbrev in list(kind_to_abbrev.items()):`
loop (abbreviation.py lines 61-64).  The duplicate set is the one computed
before the pass, and the pass iterates over a snapshot of the items, exactly
as in the Python code. -/
def findStep (m : List (Name × Name)) : List (Name × Name) :=
  m.map (fun p =>
    if isDupVal m p.2 && decide (p.2.length < p.1.length)
    then (p.1, extendAbbrev p.1 p.2) else p)

/-- The `while duplicates:` loop of `find_abbrevs` (lines 59-65), with explicit
fuel.  Returns `none` when the fuel runs out. -/
def findLoop : Nat → List (Name × Name) → Option (List (Name × Name))
  | 0, _ => none
  | fuel + 1, m => if dupExists m then findLoop fuel (findStep m) else some m

/-- Deduplication keeping the first occurrence, as performed by the Python dict
comprehension `{kind: kind[0].lower() for kind in kinds}` on its keys. -/
def firstDedup : List Name → List Name
  | [] => []
  | k :: ks => k :: (firstDedup ks).filter (fun x => x ≠ k)

/-- The initial mapping `{kind: kind[0].lower() for kind in kinds}`
(abbreviation.py line 58). -/
def initMap (kinds : List Name) : List (Name × Name) :=
  (firstDedup kinds).map (fun k => (k, [(k.headD ' ').toLower]))

/-- Fuel that dominates the loop's strictly decreasing measure: every pass that
changes the mapping lengthens some token, and total token length is bounded by
total name length, so `fuelBound` passes always suffice when the Python loop
terminates at all. -/
def fuelBound (kinds : List Name) : Nat := (kinds.map List.length).sum + 1

/-- Core of `find_abbrevs` on character lists. -/
def findCore (kinds : List Name) : Option (List (Name × Name)) :=
  findLoop (fuelBound kinds) (initMap kinds)

/-- Embedding of `find_abbrevs` (abbreviation.py lines 53-66).  `some m` when
the Python function returns the mapping `m` (as an insertion-ordered
association list); `none` when the Python loop never terminates. -/
def find_abbrevs (kinds : List String) : Option (List (String × String)) :=
  (findCore (kinds.map String.data)).map
    (List.map (fun p => (String.mk p.1, String.mk p.2)))

/-- The disambiguation loop of `find_abbrevs` terminates on input `kinds`. -/
def findAbbrevsTerminates (kinds : List String) : Prop :=
  ∃ fuel, (findLoop fuel (initMap (kinds.map String.data))).isSome

/-! ### Nontermination of the loop on lowercase-colliding names -/

/-- If a state is a fixed point of the pass and still has a duplicate, the loop
never exits. -/
theorem findLoop_none_of_fixed (m : List (Name × Name)) (hfix : findStep m = m)
    (hdup : dupExists m = true) : ∀ fuel, findLoop fuel m = none := by
  intro fuel
  induction fuel with
  | zero => rfl
  | succ n ih => simp [findLoop, hdup, hfix, ih]

/-- The stuck state reached from `["AB", "ab"]`: both tokens fully extended and
still equal. -/
def stuckAB : List (Name × Name) :=
  [(['A', 'B'], ['a', 'b']), (['a', 'b'], ['a', 'b'])]

/-- On the distinct names `"AB"` and `"ab"` the disambiguation loop never
terminates: both tokens extend to the full lowercased names, which are equal,
and no further extension is possible. -/
theorem findLoop_AB_ab :
    ∀ fuel, findLoop fuel (initMap (["AB", "ab"].map String.data)) = none := by
  intro fuel
  match fuel with
  | 0 => rfl
  | n + 1 =>
    have h1 : findStep (initMap (["AB", "ab"].map String.data)) = stuckAB := by decide
    have h2 : findLoop (n + 1) (initMap (["AB", "ab"].map String.data)) =
        findLoop n stuckAB := by
      rw [findLoop, if_pos (by decide), h1]
    rw [h2]
    exact findLoop_none_of_fixed stuckAB (by decide) (by decide) n

/-! ### Invariants of the disambiguation loop -/

/-- Invariant of one entry of the mapping: the name is nonempty and the token
is a nonempty lowercased proper-or-full front segment of the name. -/
def EntryOK (p : Name × Name) : Prop :=
  p.1 ≠ [] ∧ 1 ≤ p.2.length ∧ p.2.length ≤ p.1.length ∧
    p.2 = (lowerName p.1).take p.2.length

/-- Invariant of the whole mapping: all entries are well-formed and no two
names share a lowercasing. -/
def StateOK (m : List (Name × Name)) : Prop :=
  (∀ p ∈ m, EntryOK p) ∧ m.Pairwise (fun p q => lowerName p.1 ≠ lowerName q.1)

/-- Remaining extension capacity of the mapping; each productive pass of the
loop strictly decreases it. -/
def slack (m : List (Name × Name)) : Nat :=
  (m.map (fun p => p.1.length - p.2.length)).sum

theorem fst_findStep_entry (m : List (Name × Name)) (p : Name × Name) :
    (if isDupVal m p.2 && decide (p.2.length < p.1.length)
     then (p.1, extendAbbrev p.1 p.2) else p).1 = p.1 := by
  split <;> rfl

theorem findStep_fst (m : List (Name × Name)) :
    (findStep m).map Prod.fst = m.map Prod.fst := by
  unfold findStep
  rw [List.map_map]
  exact List.map_congr_left fun p _ => fst_findStep_entry m p

theorem lowerName_length (k : Name) : (lowerName k).length = k.length := by
  simp [lowerName]

theorem entryOK_extend (p : Name × Name) (hok : EntryOK p)
    (hlt : p.2.length < p.1.length) : EntryOK (p.1, extendAbbrev p.1 p.2) := by
  obtain ⟨hne, h1, _, htake⟩ := hok
  refine ⟨hne, ?_, ?_, ?_⟩
  · simp [extendAbbrev]
  · simp only [extendAbbrev, List.length_append, List.length_cons, List.length_nil]
    omega
  · have hlen : (lowerName p.1).length = p.1.length := lowerName_length p.1
    have hget : (lowerName p.1)[p.2.length]? =
        some ((p.1.getD p.2.length ' ').toLower) := by
      have h2 : p.2.length < (lowerName p.1).length := by omega
      have h3 : p.2.length < p.1.length := hlt
      simp [lowerName, List.getElem?_map, List.getD_eq_getElem?_getD,
        List.getElem?_eq_getElem h3]
    simp only [extendAbbrev, List.length_append, List.length_cons,
      List.length_nil, Nat.add_zero]
    rw [List.take_succ, hget]
    simp only [Option.toList_some]
    rw [← htake]

theorem entryOK_findStep (m : List (Name × Name)) (p : Name × Name)
    (_hp : p ∈ m) (hok : EntryOK p) :
    EntryOK (if isDupVal m p.2 && decide (p.2.length < p.1.length)
             then (p.1, extendAbbrev p.1 p.2) else p) := by
  split
  · next h =>
    have hlt : p.2.length < p.1.length := by
      have := (Bool.and_eq_true _ _).mp h
      exact of_decide_eq_true this.2
    exact entryOK_extend p hok hlt
  · exact hok

theorem stateOK_findStep (m : List (Name × Name)) (hok : StateOK m) :
    StateOK (findStep m) := by
  obtain ⟨hent, hpw⟩ := hok
  constructor
  · intro q hq
    simp only [findStep, List.mem_map] at hq
    obtain ⟨p, hp, rfl⟩ := hq
    exact entryOK_findStep m p hp (hent p hp)
  · unfold findStep
    rw [List.pairwise_map]
    refine hpw.imp_of_mem ?_
    intro p q hp hq hne
    rw [fst_findStep_entry m p, fst_findStep_entry m q]
    exact hne

/-- Extract two (position-wise distinct) entries carrying a value that occurs
at least twice. -/
theorem two_of_count (l : List (Name × Name)) (v : Name)
    (h : 2 ≤ (l.map Prod.snd).count v) :
    ∃ p q, List.Sublist [p, q] l ∧ p.2 = v ∧ q.2 = v := by
  induction l with
  | nil => simp at h
  | cons x xs ih =>
    rw [List.map_cons, List.count_cons] at h
    by_cases hx : x.2 = v
    · have hbeq : (x.2 == v) = true := beq_iff_eq.mpr hx
      simp only [hbeq, if_true] at h
      have h1 : 1 ≤ (xs.map Prod.snd).count v := by omega
      have hmem : v ∈ xs.map Prod.snd := List.count_pos_iff.mp (by omega)
      obtain ⟨q, hq, hqv⟩ := List.mem_map.mp hmem
      exact ⟨x, q, List.Sublist.cons₂ x (List.singleton_sublist.mpr hq), hx, hqv⟩
    · have h2 : 2 ≤ (xs.map Prod.snd).count v := by
        simp [show (x.2 == v) = false from beq_eq_false_iff_ne.mpr hx] at h
        omega
      obtain ⟨p, q, hsub, hpv, hqv⟩ := ih h2
      exact ⟨p, q, hsub.cons x, hpv, hqv⟩

/-- A fully extended token is the whole lowercased name. -/
theorem token_full (p : Name × Name) (hok : EntryOK p)
    (hfull : ¬ p.2.length < p.1.length) : p.2 = lowerName p.1 := by
  obtain ⟨_, _, hle, htake⟩ := hok
  have : p.2.length = p.1.length := by omega
  rw [htake, this, List.take_of_length_le (by simp [lowerName_length])]

/-- In a well-formed state with a duplicate, some duplicated token can still be
extended. -/
theorem exists_extendable (m : List (Name × Name)) (hok : StateOK m)
    (hdup : dupExists m = true) :
    ∃ p ∈ m, (isDupVal m p.2 && decide (p.2.length < p.1.length)) = true := by
  obtain ⟨p₀, hp₀, hd₀⟩ := List.any_eq_true.mp hdup
  have hcount : 2 ≤ countVal m p₀.2 := of_decide_eq_true hd₀
  obtain ⟨p, q, hsub, hpv, hqv⟩ := two_of_count m p₀.2 hcount
  have hpm : p ∈ m := hsub.subset (by simp)
  have hqm : q ∈ m := hsub.subset (by simp)
  have hdp : isDupVal m p.2 = true := by rw [hpv]; exact hd₀
  have hdq : isDupVal m q.2 = true := by rw [hqv]; exact hd₀
  by_cases hp : p.2.length < p.1.length
  · exact ⟨p, hpm, by simp [hdp, hp]⟩
  by_cases hq : q.2.length < q.1.length
  · exact ⟨q, hqm, by simp [hdq, hq]⟩
  · exfalso
    have hpfull : p.2 = lowerName p.1 := token_full p (hok.1 p hpm) hp
    have hqfull : q.2 = lowerName q.1 := token_full q (hok.1 q hqm) hq
    have hpair : [p, q].Pairwise (fun p q => lowerName p.1 ≠ lowerName q.1) :=
      hok.2.sublist hsub
    have hne : lowerName p.1 ≠ lowerName q.1 := by
      have := List.pairwise_cons.mp hpair
      exact this.1 q (by simp)
    apply hne
    rw [← hpfull, ← hqfull, hpv, hqv]

/-- Each pass of the loop under the duplicate guard strictly decreases the
remaining extension capacity. -/
theorem slack_findStep_lt (m : List (Name × Name)) (hok : StateOK m)
    (hdup : dupExists m = true) : slack (findStep m) < slack m := by
  obtain ⟨p₀, hp₀, hcond₀⟩ := exists_extendable m hok hdup
  unfold slack findStep
  rw [List.map_map]
  apply List.sum_lt_sum
  · intro p _
    simp only [Function.comp]
    split
    · next h =>
      simp only [extendAbbrev, List.length_append, List.length_cons,
        List.length_nil]
      omega
    · exact le_refl _
  · refine ⟨p₀, hp₀, ?_⟩
    simp only [Function.comp, hcond₀, if_true]
    have hlt : p₀.2.length < p₀.1.length :=
      of_decide_eq_true ((Bool.and_eq_true _ _).mp hcond₀).2
    simp only [extendAbbrev, List.length_append, List.length_cons,
      List.length_nil]
    omega

/-- A state with no duplicate has pairwise distinct token values. -/
theorem nodup_values_of_no_dup (m : List (Name × Name))
    (h : dupExists m = false) : (m.map Prod.snd).Nodup := by
  by_contra hnd
  obtain ⟨v, hdup⟩ := List.exists_duplicate_iff_not_nodup.mpr hnd
  have hsub : [v, v].Sublist (m.map Prod.snd) := List.duplicate_iff_sublist.mp hdup
  have hcv : 2 ≤ countVal m v := by
    have hle := hsub.count_le v
    have h2 : List.count v [v, v] = 2 := by simp
    rw [h2] at hle
    exact hle
  have hvmem : v ∈ m.map Prod.snd := hsub.subset (by simp)
  obtain ⟨p, hp, hpv⟩ := List.mem_map.mp hvmem
  have hfalse := List.any_eq_false.mp h p hp
  rw [hpv] at hfalse
  simp [isDupVal, hcv] at hfalse

/-- Soundness of the fuelled loop: in a well-formed state, with fuel exceeding
the remaining extension capacity, the loop exits with a well-formed,
duplicate-free mapping over the same keys. -/
theorem findLoop_sound :
    ∀ fuel m, StateOK m → slack m < fuel →
    ∃ r, findLoop fuel m = some r ∧ r.map Prod.fst = m.map Prod.fst ∧
      (∀ p ∈ r, EntryOK p) ∧ dupExists r = false := by
  intro fuel
  induction fuel with
  | zero => intro m _ h; omega
  | succ n ih =>
    intro m hok hsl
    by_cases hd : dupExists m = true
    · have hstep := stateOK_findStep m hok
      have hlt := slack_findStep_lt m hok hd
      obtain ⟨r, hr, hfst, hent, hnd⟩ := ih (findStep m) hstep (by omega)
      refine ⟨r, ?_, ?_, hent, hnd⟩
      · rw [findLoop, if_pos hd]; exact hr
      · rw [hfst, findStep_fst]
    · have hd' : dupExists m = false := by simpa using hd
      exact ⟨m, by rw [findLoop, if_neg hd], rfl, hok.1, hd'⟩

/-! ### Soundness of `find_abbrevs` on names with distinct lowercasings -/

theorem firstDedup_eq_self (kinds : List Name) (h : kinds.Nodup) :
    firstDedup kinds = kinds := by
  induction kinds with
  | nil => rfl
  | cons k ks ih =>
    obtain ⟨hk, hks⟩ := List.nodup_cons.mp h
    rw [firstDedup, ih hks]
    congr 1
    rw [List.filter_eq_self]
    intro x hx
    exact decide_eq_true fun hxk => hk (hxk ▸ hx)

theorem stateOK_initMap (kinds : List Name) (hne : ∀ k ∈ kinds, k ≠ [])
    (hdist : (kinds.map lowerName).Nodup) : StateOK (initMap kinds) := by
  have hnd : kinds.Nodup := hdist.of_map
  unfold initMap
  rw [firstDedup_eq_self kinds hnd]
  constructor
  · intro p hp
    obtain ⟨k, hk, rfl⟩ := List.mem_map.mp hp
    match k, hne k hk with
    | c :: t, _ =>
      refine ⟨by simp, by simp, by simp, ?_⟩
      simp [lowerName]
  · rw [List.pairwise_map]
    have : kinds.Pairwise (fun a b => lowerName a ≠ lowerName b) := by
      rw [← List.pairwise_map (f := lowerName)]
      exact hdist
    exact this.imp fun h => h

theorem slack_initMap_lt (kinds : List Name) (hnd : kinds.Nodup) :
    slack (initMap kinds) < fuelBound kinds := by
  unfold slack initMap fuelBound
  rw [firstDedup_eq_self kinds hnd, List.map_map]
  have hle : (kinds.map fun k => (fun p : Name × Name =>
      p.1.length - p.2.length) ((fun k => (k, [(k.headD ' ').toLower])) k)).sum ≤
      (kinds.map List.length).sum := by
    apply List.sum_le_sum
    intro k _
    simp only []
    omega
  calc (kinds.map ((fun p : Name × Name => p.1.length - p.2.length) ∘
          fun k => (k, [(k.headD ' ').toLower]))).sum
      ≤ (kinds.map List.length).sum := hle
    _ < (kinds.map List.length).sum + 1 := by omega

theorem string_mk_data (s : String) : String.mk s.data = s := rfl

theorem string_mk_injective : Function.Injective String.mk :=
  fun _ _ h => congrArg String.data h

/-- When no two kind names share a lowercasing (and none is empty), the
abbreviation engine returns: one entry per input name, in input order, with
pairwise distinct tokens, every token a nonempty front segment of the
lowercased source name. -/
theorem find_abbrevs_tokens_unique (kinds : List String)
    (hne : ∀ k ∈ kinds, k ≠ "")
    (hdist : (kinds.map (fun k => lowerName k.data)).Nodup) :
    ∃ m, find_abbrevs kinds = some m ∧
      m.map Prod.fst = kinds ∧
      (m.map Prod.snd).Nodup ∧
      ∀ p ∈ m, p.2.data ≠ [] ∧ p.2.data <+: lowerName p.1.data := by
  have hne' : ∀ k ∈ kinds.map String.data, k ≠ [] := by
    intro k hk
    obtain ⟨s, hs, rfl⟩ := List.mem_map.mp hk
    intro hnil
    exact hne s hs (by rw [← string_mk_data s, hnil])
  have hdist' : ((kinds.map String.data).map lowerName).Nodup := by
    rw [List.map_map]
    exact hdist
  have hnd : (kinds.map String.data).Nodup := hdist'.of_map
  obtain ⟨r, hr, hfst, hent, hnodup⟩ :=
    findLoop_sound (fuelBound (kinds.map String.data))
      (initMap (kinds.map String.data))
      (stateOK_initMap _ hne' hdist')
      (slack_initMap_lt _ hnd)
  have hkeys : r.map Prod.fst = kinds.map String.data := by
    rw [hfst]
    unfold initMap
    rw [firstDedup_eq_self _ hnd, List.map_map]
    have h1 : (Prod.fst ∘ fun k : Name => (k, [(k.headD ' ').toLower])) =
        fun k : Name => k := rfl
    rw [h1, List.map_id']
  refine ⟨r.map (fun p => (String.mk p.1, String.mk p.2)), ?_, ?_, ?_, ?_⟩
  · unfold find_abbrevs findCore
    rw [hr]
    rfl
  · rw [List.map_map]
    have h2 : (Prod.fst ∘ fun p : Name × Name => (String.mk p.1, String.mk p.2)) =
        String.mk ∘ Prod.fst := rfl
    rw [h2, ← List.map_map, hkeys, List.map_map]
    have h3 : (String.mk ∘ String.data) = fun s : String => s := rfl
    rw [h3, List.map_id']
  · rw [List.map_map]
    have h2 : (Prod.snd ∘ fun p : Name × Name => (String.mk p.1, String.mk p.2)) =
        String.mk ∘ Prod.snd := rfl
    rw [h2, ← List.map_map]
    exact (nodup_values_of_no_dup r hnodup).map string_mk_injective
  · intro q hq
    obtain ⟨p, hp, rfl⟩ := List.mem_map.mp hq
    obtain ⟨_, h1, _, htake⟩ := hent p hp
    constructor
    · intro hnil
      have : p.2.length = 0 := by
        have : (String.mk p.2).data = p.2 := rfl
        rw [← this, hnil]
        rfl
      omega
    · show p.2 <+: lowerName p.1
      rw [htake]
      exact List.take_prefix _ _

/-- Witness instance of `find_abbrevs_tokens_unique`. -/
theorem find_abbrevs_tokens_unique_witness :
    ∃ m, find_abbrevs ["gene", "disease", "drug"] = some m ∧
      m.map Prod.fst = ["gene", "disease", "drug"] ∧
      (m.map Prod.snd).Nodup ∧
      ∀ p ∈ m, p.2.data ≠ [] ∧ p.2.data <+: lowerName p.1.data :=
  find_abbrevs_tokens_unique ["gene", "disease", "drug"] (by decide) (by decide)

/-- The claim as frozen fails: `"AB"` and `"ab"` are distinct kind names, yet
`find_abbrevs` never returns on them (the fuelled model yields `none` for
every fuel). -/
theorem find_abbrevs_no_result_on_case_collision :
    ("AB" : String) ≠ "ab" ∧ find_abbrevs ["AB", "ab"] = none := by
  refine ⟨by decide, ?_⟩
  unfold find_abbrevs findCore
  rw [findLoop_AB_ab]
  rfl

/-- The disambiguation loop terminates whenever no two kind names share a
lowercasing and no name is empty. -/
theorem find_abbrevs_loop_terminates (kinds : List String)
    (hne : ∀ k ∈ kinds, k ≠ "")
    (hdist : (kinds.map (fun k => lowerName k.data)).Nodup) :
    findAbbrevsTerminates kinds := by
  have hne' : ∀ k ∈ kinds.map String.data, k ≠ [] := by
    intro k hk
    obtain ⟨s, hs, rfl⟩ := List.mem_map.mp hk
    intro hnil
    exact hne s hs (by rw [← string_mk_data s, hnil])
  have hdist' : ((kinds.map String.data).map lowerName).Nodup := by
    rw [List.map_map]
    exact hdist
  obtain ⟨r, hr, _, _, _⟩ :=
    findLoop_sound (fuelBound (kinds.map String.data))
      (initMap (kinds.map String.data))
      (stateOK_initMap _ hne' hdist')
      (slack_initMap_lt _ hdist'.of_map)
  exact ⟨fuelBound (kinds.map String.data), by rw [hr]; rfl⟩

/-- Witness instance of `find_abbrevs_loop_terminates`. -/
theorem find_abbrevs_loop_terminates_witness :
    findAbbrevsTerminates ["Compound", "Disease", "Gene"] :=
  find_abbrevs_loop_terminates ["Compound", "Disease", "Gene"]
    (by decide) (by decide)

/-- The claim as frozen fails: on `"AB"` and `"ab"` the loop neither resolves
nor returns the residual duplicate — it never terminates. -/
theorem find_abbrevs_loop_diverges : ¬ findAbbrevsTerminates ["AB", "ab"] := by
  rintro ⟨fuel, hf⟩
  rw [findLoop_AB_ab fuel] at hf
  simp at hf

/-- The claim as frozen fails: on `gene`, `disease`, `drug` the collision on
`d` is resolved by extending both colliding names, so `disease` receives
`di`, not `d`. -/
theorem find_abbrevs_gene_disease_drug :
    find_abbrevs ["gene", "disease", "drug"] =
      some [("gene", "g"), ("disease", "di"), ("drug", "dr")] ∧
    "d" ∉ ([("gene", "g"), ("disease", "di"), ("drug", "dr")].map Prod.snd) := by
  constructor
  · rfl
  · decide

/-- Amended example: the token set produced for `gene`, `disease`, `drug` is
`g`, `di`, `dr`. -/
theorem find_abbrevs_gene_disease_drug_tokens :
    (find_abbrevs ["gene", "disease", "drug"]).map (List.map Prod.snd) =
      some ["g", "di", "dr"] := rfl

/-! ### create_abbreviations (abbreviation.py lines 68-88) -/

/-- Python `str.upper()` (ASCII model). -/
def upperStr (s : String) : String := String.mk (s.data.map Char.toUpper)

/-- Python `str.lower()` on whole strings (ASCII model). -/
def lowerStr (s : String) : String := String.mk (s.data.map Char.toLower)

/-- Python `dict.get(key)` on an insertion-ordered association list. -/
def dictGet (m : List (String × String)) (k : String) : Option String :=
  (m.find? (fun p => p.1 = k)).map Prod.snd

/-- Python `dict[key] = value`: update in place when the key exists, append
otherwise. -/
def dictSet (m : List (String × String)) (k v : String) : List (String × String) :=
  if m.any (fun p => p.1 = k) then m.map (fun p => if p.1 = k then (k, v) else p)
  else m ++ [(k, v)]

/-- The body of the inner merge loop (abbreviation.py lines 82-86): keep the
existing global token when it is truthy and at least as long as the group's
token, otherwise overwrite. -/
def mergeEntry (acc : List (String × String)) (kv : String × String) :
    List (String × String) :=
  match dictGet acc kv.1 with
  | some prev => if prev ≠ "" ∧ kv.2.length ≤ prev.length then acc
                 else dictSet acc kv.1 kv.2
  | none => dictSet acc kv.1 kv.2

/-- Merging one group's `key_to_abbrev` into the global mapping. -/
def mergeGroup (acc : List (String × String)) (grp : List (String × String)) :
    List (String × String) :=
  grp.foldl mergeEntry acc

/-- The outer merge loop over all node-kind-pair groups
(abbreviation.py lines 80-86). -/
def mergeGroups (init : List (String × String))
    (groups : List (List (String × String))) : List (String × String) :=
  groups.foldl mergeGroup init

/-- The `frozenset` of the two lowercased endpoint kinds
(abbreviation.py line 76), modelled as the ordered pair with the smaller
string first: a frozenset of at most two strings is determined by it. -/
def edgeSetKey (s t : String) : String × String :=
  let ls := lowerStr s
  let lt := lowerStr t
  if ls ≤ lt then (ls, lt) else (lt, ls)

/-- Python `edge_set_to_keys.setdefault(key, list()).append(value)`
(abbreviation.py line 78). -/
def setdefaultAppendE (acc : List ((String × String) × List String))
    (key : String × String) (v : String) :
    List ((String × String) × List String) :=
  if acc.any (fun p => p.1 = key) then
    acc.map (fun p => if p.1 = key then (p.1, p.2 ++ [v]) else p)
  else acc ++ [(key, [v])]

/-- Grouping of edge kind-names by unordered endpoint pair
(abbreviation.py lines 74-78).  An edge is a `(source, target, kind,
direction)` record; only the first three fields are read here. -/
def edge_set_to_keys (edges : List (String × String × String × String)) :
    List ((String × String) × List String) :=
  edges.foldl (fun acc e => setdefaultAppendE acc (edgeSetKey e.1 e.2.1) e.2.2.1) []

/-- Embedding of `create_abbreviations` (abbreviation.py lines 68-88).  The
metagraph is represented by its node-kind list (`node_dict.keys()`) and edge
list (`edge_dict.keys()`); `none` when any `find_abbrevs` call diverges. -/
def create_abbreviations (nodeKinds : List String)
    (edges : List (String × String × String × String)) :
    Option (List (String × String)) :=
  match find_abbrevs nodeKinds with
  | none => none
  | some kta =>
    let kindToAbbrev := kta.map (fun p => (p.1, upperStr p.2))
    match ((edge_set_to_keys edges).map Prod.snd).mapM find_abbrevs with
    | none => none
    | some groups => some (mergeGroups kindToAbbrev groups)

/-! ### The longest-wins merge rule -/

/-- One step of the merge rule as the specification states it: keep whichever
token is longer, ties favoring the existing entry. -/
def specStep (acc : Option String) (t : String) : Option String :=
  match acc with
  | none => some t
  | some p => some (if t.length ≤ p.length then p else t)

/-- The merged token predicted by the specification for the token sequence a
kind-name receives across groups, in group order. -/
def specLongerWins (toks : List String) : Option String :=
  toks.foldl specStep none

theorem dictGet_none_of_not_mem (m : List (String × String)) (k : String)
    (h : k ∉ m.map Prod.fst) : dictGet m k = none := by
  induction m with
  | nil => rfl
  | cons p m ih =>
    simp only [List.map_cons, List.mem_cons, not_or] at h
    unfold dictGet
    rw [List.find?_cons_of_neg _ (by simpa using fun he => h.1 he.symm)]
    exact ih h.2

theorem dictGet_some_mem (m : List (String × String)) (k t : String)
    (h : dictGet m k = some t) : ∃ p ∈ m, p.1 = k ∧ p.2 = t := by
  unfold dictGet at h
  obtain ⟨p, hp, hmap⟩ := Option.map_eq_some'.mp h
  refine ⟨p, List.mem_of_find?_eq_some hp, ?_, hmap⟩
  have := List.find?_some hp
  exact of_decide_eq_true this

theorem dictGet_update (m : List (String × String)) (k v : String) :
    dictGet (m.map (fun p => if p.1 = k then (k, v) else p)) k =
      if m.any (fun p => p.1 = k) then some v else none := by
  induction m with
  | nil => rfl
  | cons p m ih =>
    by_cases hp : p.1 = k
    · rw [List.map_cons, if_pos hp]
      unfold dictGet
      rw [List.find?_cons_of_pos _ (by simp)]
      have hany : ((p :: m).any fun q => decide (q.1 = k)) = true := by
        rw [List.any_cons]
        simp [hp]
      rw [hany, if_pos rfl]
      rfl
    · rw [List.map_cons, if_neg hp]
      unfold dictGet
      rw [List.find?_cons_of_neg _ (by simpa using hp)]
      unfold dictGet at ih
      rw [ih, List.any_cons]
      have hd : decide (p.1 = k) = false := decide_eq_false hp
      rw [hd, Bool.false_or]

theorem dictGet_append_new (m : List (String × String)) (k v : String)
    (h : m.any (fun p => p.1 = k) = false) :
    dictGet (m ++ [(k, v)]) k = some v := by
  induction m with
  | nil => simp [dictGet, List.find?]
  | cons p m ih =>
    simp only [List.any_cons, Bool.or_eq_false_iff] at h
    unfold dictGet
    rw [List.cons_append, List.find?_cons_of_neg _ (by simpa using h.1)]
    exact ih h.2

theorem dictGet_dictSet_self (m : List (String × String)) (k v : String) :
    dictGet (dictSet m k v) k = some v := by
  unfold dictSet
  by_cases h : m.any (fun p => p.1 = k)
  · rw [if_pos h, dictGet_update, if_pos h]
  · rw [if_neg h, dictGet_append_new m k v (by rwa [Bool.not_eq_true] at h)]

theorem dictGet_update_other (m : List (String × String)) (k k' v : String)
    (hk : k' ≠ k) :
    dictGet (m.map (fun p => if p.1 = k' then (k', v) else p)) k = dictGet m k := by
  induction m with
  | nil => rfl
  | cons p m ih =>
    rw [List.map_cons]
    by_cases hp : p.1 = k'
    · rw [if_pos hp]
      unfold dictGet
      rw [List.find?_cons_of_neg _ (by simpa using hk),
        List.find?_cons_of_neg _
          (by simpa using (show ¬ p.1 = k from fun he => hk (hp ▸ he)))]
      exact ih
    · rw [if_neg hp]
      by_cases hpk : p.1 = k
      · unfold dictGet
        rw [List.find?_cons_of_pos _ (by simpa using hpk),
          List.find?_cons_of_pos _ (by simpa using hpk)]
      · unfold dictGet
        rw [List.find?_cons_of_neg _ (by simpa using hpk),
          List.find?_cons_of_neg _ (by simpa using hpk)]
        exact ih

theorem dictGet_append_other (m : List (String × String)) (k k' v : String)
    (hk : k' ≠ k) : dictGet (m ++ [(k', v)]) k = dictGet m k := by
  induction m with
  | nil =>
    unfold dictGet
    rw [List.nil_append, List.find?_cons_of_neg _ (by simpa using hk)]
  | cons p m ih =>
    by_cases hpk : p.1 = k
    · unfold dictGet
      rw [List.cons_append, List.find?_cons_of_pos _ (by simpa using hpk),
        List.find?_cons_of_pos _ (by simpa using hpk)]
    · unfold dictGet
      rw [List.cons_append, List.find?_cons_of_neg _ (by simpa using hpk),
        List.find?_cons_of_neg _ (by simpa using hpk)]
      exact ih

theorem dictGet_dictSet_other (m : List (String × String)) (k k' v : String)
    (hk : k' ≠ k) : dictGet (dictSet m k' v) k = dictGet m k := by
  unfold dictSet
  by_cases h : m.any (fun p => p.1 = k')
  · rw [if_pos h]
    exact dictGet_update_other m k k' v hk
  · rw [if_neg h]
    exact dictGet_append_other m k k' v hk

/-- The Python rule applied to one group token, as a function of the previous
global value. -/
def pyRule (prev : Option String) (t : String) : String :=
  match prev with
  | some p => if p ≠ "" ∧ t.length ≤ p.length then p else t
  | none => t

theorem mergeEntry_get_self (acc : List (String × String)) (kv : String × String) :
    dictGet (mergeEntry acc kv) kv.1 = some (pyRule (dictGet acc kv.1) kv.2) := by
  cases h : dictGet acc kv.1 with
  | none =>
    have hme : mergeEntry acc kv = dictSet acc kv.1 kv.2 := by
      unfold mergeEntry
      rw [h]
    rw [hme, dictGet_dictSet_self]
    rfl
  | some prev =>
    by_cases hc : prev ≠ "" ∧ kv.2.length ≤ prev.length
    · have hme : mergeEntry acc kv = acc := by
        unfold mergeEntry
        rw [h]
        show (if prev ≠ "" ∧ kv.2.length ≤ prev.length then acc
              else dictSet acc kv.1 kv.2) = acc
        rw [if_pos hc]
      have hpr : pyRule (some prev) kv.2 = prev := by
        show (if prev ≠ "" ∧ kv.2.length ≤ prev.length then prev else kv.2) = prev
        rw [if_pos hc]
      rw [hme, hpr, h]
    · have hme : mergeEntry acc kv = dictSet acc kv.1 kv.2 := by
        unfold mergeEntry
        rw [h]
        show (if prev ≠ "" ∧ kv.2.length ≤ prev.length then acc
              else dictSet acc kv.1 kv.2) = dictSet acc kv.1 kv.2
        rw [if_neg hc]
      have hpr : pyRule (some prev) kv.2 = kv.2 := by
        show (if prev ≠ "" ∧ kv.2.length ≤ prev.length then prev else kv.2) = kv.2
        rw [if_neg hc]
      rw [hme, hpr, dictGet_dictSet_self]

theorem mergeEntry_get_other (acc : List (String × String)) (kv : String × String)
    (k : String) (hk : kv.1 ≠ k) :
    dictGet (mergeEntry acc kv) k = dictGet acc k := by
  cases h : dictGet acc kv.1 with
  | none =>
    have hme : mergeEntry acc kv = dictSet acc kv.1 kv.2 := by
      unfold mergeEntry
      rw [h]
    rw [hme]
    exact dictGet_dictSet_other acc k kv.1 kv.2 hk
  | some prev =>
    by_cases hc : prev ≠ "" ∧ kv.2.length ≤ prev.length
    · have hme : mergeEntry acc kv = acc := by
        unfold mergeEntry
        rw [h]
        show (if prev ≠ "" ∧ kv.2.length ≤ prev.length then acc
              else dictSet acc kv.1 kv.2) = acc
        rw [if_pos hc]
      rw [hme]
    · have hme : mergeEntry acc kv = dictSet acc kv.1 kv.2 := by
        unfold mergeEntry
        rw [h]
        show (if prev ≠ "" ∧ kv.2.length ≤ prev.length then acc
              else dictSet acc kv.1 kv.2) = dictSet acc kv.1 kv.2
        rw [if_neg hc]
      rw [hme]
      exact dictGet_dictSet_other acc k kv.1 kv.2 hk

theorem mergeGroup_get (k : String) :
    ∀ (g : List (String × String)) (acc : List (String × String)),
    (g.map Prod.fst).Nodup →
    dictGet (mergeGroup acc g) k =
      (match dictGet g k with
       | none => dictGet acc k
       | some t => some (pyRule (dictGet acc k) t)) := by
  intro g
  induction g with
  | nil => intro acc _; rfl
  | cons kv g ih =>
    intro acc hnd
    simp only [List.map_cons, List.nodup_cons] at hnd
    have hstep : mergeGroup acc (kv :: g) = mergeGroup (mergeEntry acc kv) g := rfl
    by_cases hk : kv.1 = k
    · have hgnone : dictGet g k = none :=
        dictGet_none_of_not_mem g k (hk ▸ hnd.1)
      have hget : dictGet (kv :: g) k = some kv.2 := by
        unfold dictGet
        rw [List.find?_cons_of_pos _ (by simpa using hk)]
        rfl
      rw [hstep, ih (mergeEntry acc kv) hnd.2, hgnone, hget]
      show dictGet (mergeEntry acc kv) k = some (pyRule (dictGet acc k) kv.2)
      rw [← hk]
      exact mergeEntry_get_self acc kv
    · have hget : dictGet (kv :: g) k = dictGet g k := by
        unfold dictGet
        rw [List.find?_cons_of_neg _ (by simpa using hk)]
      rw [hstep, ih (mergeEntry acc kv) hnd.2, hget,
        mergeEntry_get_other acc kv k hk]

theorem dictGet_ne_empty (g : List (String × String)) (k t : String)
    (hne : ∀ p ∈ g, p.2 ≠ "") (h : dictGet g k = some t) : t ≠ "" := by
  obtain ⟨p, hp, _, hpt⟩ := dictGet_some_mem g k t h
  exact hpt ▸ hne p hp

theorem mergeGroups_get_fold (k : String) :
    ∀ (groups : List (List (String × String))) (acc : List (String × String)),
    (∀ g ∈ groups, (g.map Prod.fst).Nodup) →
    (∀ g ∈ groups, ∀ p ∈ g, p.2 ≠ "") →
    (∀ s, dictGet acc k = some s → s ≠ "") →
    dictGet (mergeGroups acc groups) k =
      (groups.filterMap (fun g => dictGet g k)).foldl specStep (dictGet acc k) := by
  intro groups
  induction groups with
  | nil =>
    intro acc _ _ _
    rfl
  | cons g gs ih =>
    intro acc hnd hne hacc
    have hstep : mergeGroups acc (g :: gs) = mergeGroups (mergeGroup acc g) gs := rfl
    have hmg := mergeGroup_get k g acc (hnd g (by simp))
    cases hg : dictGet g k with
    | none =>
      rw [hg] at hmg
      have hmg' : dictGet (mergeGroup acc g) k = dictGet acc k := hmg
      rw [hstep,
        ih (mergeGroup acc g) (fun g' hg' => hnd g' (by simp [hg']))
          (fun g' hg' => hne g' (by simp [hg'])) (by rw [hmg']; exact hacc),
        hmg', @List.filterMap_cons_none _ _ (fun g => dictGet g k) g gs hg]
    | some t =>
      rw [hg] at hmg
      have ht : t ≠ "" := dictGet_ne_empty g k t (hne g (by simp)) hg
      have hmg' : dictGet (mergeGroup acc g) k = specStep (dictGet acc k) t := by
        have hmg2 : dictGet (mergeGroup acc g) k =
            some (pyRule (dictGet acc k) t) := hmg
        rw [hmg2]
        cases hac : dictGet acc k with
        | none => rfl
        | some pp =>
          have hpp : pp ≠ "" := hacc pp hac
          show some (pyRule (some pp) t) = specStep (some pp) t
          have h1 : pyRule (some pp) t =
              if pp ≠ "" ∧ t.length ≤ pp.length then pp else t := rfl
          have h2 : specStep (some pp) t =
              some (if t.length ≤ pp.length then pp else t) := rfl
          rw [h1, h2]
          by_cases hle : t.length ≤ pp.length
          · rw [if_pos ⟨hpp, hle⟩, if_pos hle]
          · rw [if_neg (fun hco => hle hco.2), if_neg hle]
      have hacc' : ∀ s, dictGet (mergeGroup acc g) k = some s → s ≠ "" := by
        intro s hs
        rw [hmg'] at hs
        cases hac : dictGet acc k with
        | none =>
          rw [hac] at hs
          cases hs
          exact ht
        | some pp =>
          rw [hac] at hs
          have hpp : pp ≠ "" := hacc pp hac
          have hs' : (if t.length ≤ pp.length then pp else t) = s :=
            Option.some.inj hs
          rw [← hs']
          by_cases hle : t.length ≤ pp.length
          · rw [if_pos hle]; exact hpp
          · rw [if_neg hle]; exact ht
      rw [hstep,
        ih (mergeGroup acc g) (fun g' hg' => hnd g' (by simp [hg']))
          (fun g' hg' => hne g' (by simp [hg'])) hacc',
        hmg', @List.filterMap_cons_some _ _ (fun g => dictGet g k) g gs t hg,
        List.foldl_cons]

/-- The fold of `specStep` returns an element of the token list of maximal
length (with the seed also bounded). -/
theorem foldl_specStep_max :
    ∀ (toks : List String) (acc : Option String) (t : String),
    toks.foldl specStep acc = some t →
    (t ∈ toks ∨ acc = some t) ∧ (∀ t' ∈ toks, t'.length ≤ t.length) ∧
    (∀ s, acc = some s → s.length ≤ t.length) := by
  intro toks
  induction toks with
  | nil =>
    intro acc t h
    refine ⟨Or.inr h, ?_, ?_⟩
    · intro t' ht'
      cases ht'
    · intro s hs
      rw [hs] at h
      cases h
      exact le_refl _
  | cons x xs ih =>
    intro acc t h
    rw [List.foldl_cons] at h
    obtain ⟨hmem, hbound, haccb⟩ := ih (specStep acc x) t h
    have hx : x.length ≤ t.length := by
      cases hac : acc with
      | none => exact haccb x (by rw [hac]; rfl)
      | some p =>
        have := haccb (if x.length ≤ p.length then p else x) (by rw [hac]; rfl)
        by_cases hle : x.length ≤ p.length
        · rw [if_pos hle] at this
          omega
        · rw [if_neg hle] at this
          exact this
    refine ⟨?_, ?_, ?_⟩
    · rcases hmem with h' | h'
      · exact Or.inl (List.mem_cons_of_mem x h')
      · cases hac : acc with
        | none =>
          rw [hac] at h'
          have hxt : x = t := Option.some.inj h'
          exact Or.inl (hxt ▸ List.mem_cons_self x xs)
        | some p =>
          rw [hac] at h'
          have h'' : (if x.length ≤ p.length then p else x) = t :=
            Option.some.inj h'
          by_cases hle : x.length ≤ p.length
          · rw [if_pos hle] at h''
            exact Or.inr (congrArg some h'')
          · rw [if_neg hle] at h''
            exact Or.inl (h'' ▸ List.mem_cons_self x xs)
    · intro t' ht'
      rcases List.mem_cons.mp ht' with rfl | hm
      · exact hx
      · exact hbound t' hm
    · intro s hs
      rw [hs] at haccb
      have := haccb (if x.length ≤ s.length then s else x) rfl
      by_cases hle : x.length ≤ s.length
      · rw [if_pos hle] at this
        exact this
      · rw [if_neg hle] at this
        omega

/-- The kind-pair disambiguator's merge step keeps, for every kind-name, the
longest token any group assigned it (ties favoring the earlier group): for a
key absent from the initial node-kind mapping, the merged value follows the
specification's longest-wins rule, and that rule selects a token of the group
sequence of maximal length. -/
theorem create_abbreviations_longest_wins (init : List (String × String))
    (groups : List (List (String × String))) (k : String)
    (hinit : dictGet init k = none)
    (hnd : ∀ g ∈ groups, (g.map Prod.fst).Nodup)
    (hne : ∀ g ∈ groups, ∀ p ∈ g, p.2 ≠ "") :
    dictGet (mergeGroups init groups) k =
      specLongerWins (groups.filterMap (fun g => dictGet g k)) ∧
    ∀ t, specLongerWins (groups.filterMap (fun g => dictGet g k)) = some t →
      t ∈ groups.filterMap (fun g => dictGet g k) ∧
      ∀ t' ∈ groups.filterMap (fun g => dictGet g k),
        t'.length ≤ t.length := by
  constructor
  · have hf := mergeGroups_get_fold k groups init hnd hne
      (by rw [hinit]; intro s hs; cases hs)
    rw [hf, hinit]
    rfl
  · intro t ht
    have hm := foldl_specStep_max (groups.filterMap fun g => dictGet g k) none t ht
    obtain ⟨hmem, hbound, _⟩ := hm
    rcases hmem with h' | h'
    · exact ⟨h', hbound⟩
    · cases h'

/-- Witness for `create_abbreviations_longest_wins`: the kind-name
`regulates` receives token `r` in the Gene-Gene group and token `reg` in the
Gene-Pathway group (where it collides with `reacts`), and the merged global
token is the longer one, `reg`. -/
theorem create_abbreviations_longest_wins_witness :
    dictGet (mergeGroups [("gene", "G"), ("pathway", "P")]
        [[("regulates", "r")], [("regulates", "reg"), ("reacts", "rea")]])
        "regulates" =
      specLongerWins ([[("regulates", "r")],
        [("regulates", "reg"), ("reacts", "rea")]].filterMap
          (fun g => dictGet g "regulates")) ∧
    ∀ t, specLongerWins ([[("regulates", "r")],
        [("regulates", "reg"), ("reacts", "rea")]].filterMap
          (fun g => dictGet g "regulates")) = some t →
      t ∈ [[("regulates", "r")],
        [("regulates", "reg"), ("reacts", "rea")]].filterMap
          (fun g => dictGet g "regulates") ∧
      ∀ t' ∈ [[("regulates", "r")],
        [("regulates", "reg"), ("reacts", "rea")]].filterMap
          (fun g => dictGet g "regulates"), t'.length ≤ t.length :=
  create_abbreviations_longest_wins [("gene", "G"), ("pathway", "P")]
    [[("regulates", "r")], [("regulates", "reg"), ("reacts", "rea")]]
    "regulates" (by decide) (by decide) (by decide)

/-! ### Embedding of hetio/neo4j.py: labels, types, metarels -/

/-- Python `str.title()` (ASCII model): a letter starts a word when the
previous character is not a letter; word-initial letters are uppercased,
the following letters lowercased. -/
def pyTitleGo : Bool → List Char → List Char
  | _, [] => []
  | prevAlpha, c :: cs =>
    (if c.isAlpha then (if prevAlpha then c.toLower else c.toUpper) else c) ::
      pyTitleGo c.isAlpha cs

def pyTitle (s : String) : String := String.mk (pyTitleGo false s.data)

/-- Embedding of `as_label` (neo4j.py lines 80-86): `str(metanode)` is the
metanode's kind identifier (its rendering lives in hetio.hetnet, outside
src, and the spec calls the label the rendered node kind), then `.title()`
and removal of spaces. -/
def as_label (identifier : String) : String :=
  String.mk ((pyTitle identifier).data.filter (fun c => !(c == ' ')))

/-- Modelled from the spec: `arrange_metaege` is imported from
`hetio.abbreviation` (neo4j.py line 12) but absent from the source under
src; section 4.4 of the specification says the relation token is the
uppercased kind-name suffixed with the disambiguating abbreviation, so the
arrangement is modelled as the identity on the abbreviation. -/
def arrange_metaege (abbr : String) : String := abbr

/-- Python `re.sub('[<>]', '', ...)` (neo4j.py line 97). -/
def stripAngles (s : String) : String :=
  String.mk (s.data.filter (fun c => !(c == '<') && !(c == '>')))

/-- Python `str.upper().replace(' ', '_')` (neo4j.py lines 93-94). -/
def upperUnderscore (s : String) : String :=
  String.mk ((s.data.map Char.toUpper).map (fun c => if c = ' ' then '_' else c))

/-- Embedding of `as_type` (neo4j.py lines 88-98) on the metaedge's kind name
and abbreviation (`metaedge.get_abbrev()`, whose value comes from
hetio.hetnet outside src and is carried as a field here). -/
def as_type (kind abbr : String) : String :=
  upperUnderscore kind ++ "_" ++ stripAngles (arrange_metaege abbr)

/-- One edge kind of a metapath: the data `metaedge.get_id()` returns
(neo4j.py line 119) plus the metaedge's abbreviation. -/
structure PathEdge where
  source : String
  target : String
  kind : String
  direction : String
  abbr : String
deriving DecidableEq, Inhabited

/-- One normalized step, the tuple built by `metaedge_to_metarel`
(neo4j.py line 120). -/
structure Metarel where
  source_label : String
  target_label : String
  rel_type : String
  direction : String
deriving DecidableEq, Inhabited

/-- Embedding of `metaedge_to_metarel` (neo4j.py lines 117-120). -/
def metaedge_to_metarel (e : PathEdge) : Metarel :=
  ⟨as_label e.source, as_label e.target, as_type e.kind e.abbr, e.direction⟩

/-- Embedding of `metapath_to_metarels` (neo4j.py lines 114-115). -/
def metapath_to_metarels (mp : List PathEdge) : List Metarel :=
  mp.map metaedge_to_metarel

/-- Errors of the compiler: the chaining precondition of the normalizer and
the `assert unique_nodes is False` fallthrough of the uniqueness-mode
dispatch (an `AssertionError` in Python, named after the spec's taxonomy). -/
inductive CompileError
  | chainingError
  | unsupportedMode
deriving DecidableEq

/-- Consecutive steps chain: each step's target kind equals the next step's
source kind. -/
def chains : List PathEdge → Bool
  | [] => true
  | [_] => true
  | e1 :: e2 :: rest => e1.target == e2.source && chains (e2 :: rest)

/-- Modelled from the spec: metapaths reach `metapath_to_metarels` as already
constructed `MetaPath` objects, and the chaining validation (raising the
spec's ChainingError on consecutive steps that do not share a connecting
node kind) lives in `hetio.hetnet`, which is not under src.  The normalizer
checks chaining and otherwise defers to `metapath_to_metarels`. -/
def normalize (mp : List PathEdge) : Except CompileError (List Metarel) :=
  if chains mp then .ok (metapath_to_metarels mp) else .error .chainingError

/-- The normalizer yields exactly one step per edge kind on chaining
metapaths and signals the chaining error otherwise. -/
theorem normalize_chaining (mp : List PathEdge) (_hlen : 1 ≤ mp.length) :
    (chains mp = true →
      normalize mp = .ok (metapath_to_metarels mp) ∧
      (metapath_to_metarels mp).length = mp.length) ∧
    (chains mp = false →
      normalize mp = .error CompileError.chainingError) := by
  constructor
  · intro hc
    constructor
    · unfold normalize
      rw [if_pos hc]
    · unfold metapath_to_metarels
      rw [List.length_map]
  · intro hc
    unfold normalize
    rw [if_neg (by rw [hc]; exact Bool.false_ne_true)]

/-- Witness for `normalize_chaining`: a chaining Gene-Gene-Disease metapath
normalizes to one step per edge kind. -/
theorem normalize_chaining_witness :
    normalize [⟨"gene", "gene", "interacts", "forward", "i"⟩,
               ⟨"gene", "disease", "associates", "forward", "a"⟩] =
      .ok (metapath_to_metarels
        [⟨"gene", "gene", "interacts", "forward", "i"⟩,
         ⟨"gene", "disease", "associates", "forward", "a"⟩]) ∧
    (metapath_to_metarels
      [⟨"gene", "gene", "interacts", "forward", "i"⟩,
       ⟨"gene", "disease", "associates", "forward", "a"⟩]).length = 2 :=
  (normalize_chaining
    [⟨"gene", "gene", "interacts", "forward", "i"⟩,
     ⟨"gene", "disease", "associates", "forward", "a"⟩] (by decide)).1 (by decide)

/-! ### cypher_path (neo4j.py lines 122-141) -/

/-- The `dir0` connector piece: `'<-' if direction == 'backward' else '-'`. -/
def dir0 (d : String) : String := if d = "backward" then "<-" else "-"

/-- The `dir1` connector piece: `'->' if direction == 'forward' else '-'`. -/
def dir1 (d : String) : String := if d = "forward" then "->" else "-"

/-- One iteration's appended text in `cypher_path`
(`'{dir0}[:{rel_type}]{dir1}(n{i}{target_label})'`, neo4j.py line 140),
with `L` the number of metarels and `i` the zero-based loop index. -/
def cypherSeg (L i : Nat) (m : Metarel) : String :=
  dir0 m.direction ++ "[:" ++ m.rel_type ++ "]" ++ dir1 m.direction ++
    "(n" ++ toString (i + 1) ++
    (if i + 1 = L then ":" ++ m.target_label else "") ++ ")"

/-- The `for i, ... in enumerate(metarels)` accumulation of `cypher_path`. -/
def cypherLoop (L : Nat) : Nat → List Metarel → String
  | _, [] => ""
  | i, m :: rest => cypherSeg L i m ++ cypherLoop L (i + 1) rest

/-- Embedding of `cypher_path` (neo4j.py lines 122-141) on a metarels list
(the `MetaPath` branch converts through `metapath_to_metarels` first). -/
def cypher_path (metarels : List Metarel) : String :=
  "(n0:" ++ (metarels.headD default).source_label ++ ")" ++
    cypherLoop metarels.length 0 metarels

/-- Concatenation of a list of fragments. -/
def strConcat (l : List String) : String := l.foldr (· ++ ·) ""

/-- A step's connector as the specification describes it: backward gives a
target-to-source arrow piece, forward a source-to-target arrow piece,
undirected neither. -/
def specConnector (m : Metarel) : String :=
  dir0 m.direction ++ "[:" ++ m.rel_type ++ "]" ++ dir1 m.direction

/-- A node variable as the specification describes it: one variable per
position, with a label annotation only at position `0` (the first label) and
position `L` (the last label). -/
def specNodeVar (i L : Nat) (lbl0 lblL : String) : String :=
  "(n" ++ toString i ++
    (if i = 0 then ":" ++ lbl0 else if i = L then ":" ++ lblL else "") ++ ")"

/-- The pattern as the specification describes it: the node variable of
position 0, then for every step its connector followed by the node variable
of the next position. -/
def cypher_path_spec (ms : List Metarel) : String :=
  specNodeVar 0 ms.length (ms.headD default).source_label
      (ms.getLastD default).target_label ++
    strConcat (ms.enum.map (fun p =>
      specConnector p.2 ++
        specNodeVar (p.1 + 1) ms.length (ms.headD default).source_label
          (ms.getLastD default).target_label))

theorem getLastD_cons_of_ne_nil {α : Type} (m d : α) (rest : List α)
    (h : rest ≠ []) : (m :: rest).getLastD d = rest.getLastD d := by
  match rest, h with
  | r :: rs, _ =>
    simp [List.getLastD_cons]

theorem cypherLoop_spec (lbl0 lblL : String) :
    ∀ (ms : List Metarel) (i L : Nat), i + ms.length = L →
    (ms ≠ [] → (ms.getLastD default).target_label = lblL) →
    cypherLoop L i ms =
      strConcat ((List.enumFrom i ms).map (fun p =>
        specConnector p.2 ++ specNodeVar (p.1 + 1) L lbl0 lblL)) := by
  intro ms
  induction ms with
  | nil => intro i L _ _; rfl
  | cons m rest ih =>
    intro i L hlen hlast
    have hseg : cypherSeg L i m = specConnector m ++ specNodeVar (i + 1) L lbl0 lblL := by
      unfold cypherSeg specConnector specNodeVar
      by_cases hL : i + 1 = L
      · have hrest : rest = [] := by
          have : rest.length = 0 := by
            simp only [List.length_cons] at hlen
            omega
          exact List.length_eq_zero.mp this
        have hm : m.target_label = lblL := by
          have := hlast (by simp)
          rw [hrest] at this
          simpa using this
        rw [if_pos hL, if_neg (Nat.succ_ne_zero i), if_pos hL, hm]
        apply String.ext
        simp [String.data_append, List.append_assoc]
      · rw [if_neg hL, if_neg (Nat.succ_ne_zero i), if_neg hL]
        apply String.ext
        simp [String.data_append, List.append_assoc]
    have htail := ih (i + 1) L
      (by simp only [List.length_cons] at hlen; omega)
      (by
        intro hne
        have := hlast (by simp)
        rwa [getLastD_cons_of_ne_nil m default rest hne] at this)
    show cypherSeg L i m ++ cypherLoop L (i + 1) rest =
      (specConnector m ++ specNodeVar (i + 1) L lbl0 lblL) ++
        strConcat ((List.enumFrom (i + 1) rest).map (fun p =>
          specConnector p.2 ++ specNodeVar (p.1 + 1) L lbl0 lblL))
    rw [hseg, htail]

/-- The pattern builder emits one node variable per position, labels only the
first and last variables, and renders each connector by its step's
direction; on the two-step forward Gene-interacts-Gene-associates-Disease
metarels it yields exactly the expected pattern (node variables are named
`n0..nL` in the source). -/
theorem cypher_path_pattern :
    (∀ ms : List Metarel, ms ≠ [] → cypher_path ms = cypher_path_spec ms) ∧
    cypher_path [⟨"Gene", "Gene", "INTERACTS_i", "forward"⟩,
                 ⟨"Gene", "Disease", "ASSOCIATES_a", "forward"⟩] =
      "(n0:Gene)-[:INTERACTS_i]->(n1)-[:ASSOCIATES_a]->(n2:Disease)" := by
  constructor
  · intro ms hne
    unfold cypher_path cypher_path_spec
    have hhead : ("(n0:" ++ (ms.headD default).source_label ++ ")" : String) =
        specNodeVar 0 ms.length (ms.headD default).source_label
          (ms.getLastD default).target_label := by
      unfold specNodeVar
      rw [if_pos rfl]
      apply String.ext
      simp [String.data_append, List.append_assoc]
      rfl
    rw [hhead, cypherLoop_spec (ms.headD default).source_label
      (ms.getLastD default).target_label ms 0 ms.length (by omega)
      (fun _ => rfl)]
    rfl
  · decide

/-- Witness for `cypher_path_pattern`: the loop-built pattern and the
specification-shaped pattern coincide on the example metarels. -/
theorem cypher_path_pattern_witness :
    cypher_path [⟨"Gene", "Gene", "INTERACTS_i", "forward"⟩,
                 ⟨"Gene", "Disease", "ASSOCIATES_a", "forward"⟩] =
      cypher_path_spec [⟨"Gene", "Gene", "INTERACTS_i", "forward"⟩,
                        ⟨"Gene", "Disease", "ASSOCIATES_a", "forward"⟩] :=
  cypher_path_pattern.1
    [⟨"Gene", "Gene", "INTERACTS_i", "forward"⟩,
     ⟨"Gene", "Disease", "ASSOCIATES_a", "forward"⟩] (by decide)

/-! ### Pair enumeration: itertools.combinations(xs, 2) -/

/-- Embedding of `itertools.combinations(xs, 2)` in its enumeration order. -/
def combos2 {α : Type} : List α → List (α × α)
  | [] => []
  | x :: xs => (xs.map (fun y => (x, y))) ++ combos2 xs

theorem combos2_length {α : Type} (l : List α) :
    (combos2 l).length = Nat.choose l.length 2 := by
  induction l with
  | nil => rfl
  | cons x xs ih =>
    rw [combos2, List.length_append, List.length_map, ih, List.length_cons]
    rw [Nat.choose_succ_succ, Nat.choose_one_right]

theorem combos2_mem {α : Type} (l : List α) (p : α × α) (h : p ∈ combos2 l) :
    p.1 ∈ l ∧ p.2 ∈ l := by
  induction l with
  | nil => cases h
  | cons x xs ih =>
    rw [combos2, List.mem_append] at h
    rcases h with h | h
    · obtain ⟨y, hy, rfl⟩ := List.mem_map.mp h
      exact ⟨by simp, by simp [hy]⟩
    · obtain ⟨h1, h2⟩ := ih h
      exact ⟨List.mem_cons_of_mem x h1, List.mem_cons_of_mem x h2⟩

theorem combos2_rel {α : Type} (R : α → α → Prop) (l : List α)
    (hl : l.Pairwise R) (p : α × α) (h : p ∈ combos2 l) : R p.1 p.2 := by
  induction l with
  | nil => cases h
  | cons x xs ih =>
    obtain ⟨hx, hxs⟩ := List.pairwise_cons.mp hl
    rw [combos2, List.mem_append] at h
    rcases h with h | h
    · obtain ⟨y, hy, rfl⟩ := List.mem_map.mp h
      exact hx y hy
    · exact ih hxs h

theorem combos2_nodup {α : Type} (l : List α) (hl : l.Pairwise (· ≠ ·)) :
    (combos2 l).Nodup := by
  induction l with
  | nil => exact List.nodup_nil
  | cons x xs ih =>
    obtain ⟨hx, hxs⟩ := List.pairwise_cons.mp hl
    rw [combos2, List.nodup_append]
    refine ⟨?_, ih hxs, ?_⟩
    · have hnd : xs.Nodup := hxs
      exact hnd.map (fun a b h => congrArg Prod.snd h)
    · intro p hp hq
      obtain ⟨y, _, rfl⟩ := List.mem_map.mp hp
      have := (combos2_mem xs (x, y) hq).1
      exact hx x this rfl

theorem combos2_append_right {α : Type} (l : List α) (a : α) (p : α × α)
    (h : p ∈ combos2 l) : p ∈ combos2 (l ++ [a]) := by
  induction l with
  | nil => cases h
  | cons x xs ih =>
    rw [combos2, List.mem_append] at h
    rw [List.cons_append, combos2, List.mem_append]
    rcases h with h | h
    · obtain ⟨y, hy, rfl⟩ := List.mem_map.mp h
      exact Or.inl (List.mem_map.mpr ⟨y, List.mem_append_left _ hy, rfl⟩)
    · exact Or.inr (ih h)

theorem combos2_mem_last {α : Type} (l : List α) (a y : α) (h : a ∈ l) :
    (a, y) ∈ combos2 (l ++ [y]) := by
  induction l with
  | nil => cases h
  | cons b bs ih =>
    rw [List.cons_append, combos2, List.mem_append]
    rcases List.mem_cons.mp h with rfl | h
    · exact Or.inl (List.mem_map.mpr ⟨y, by simp, rfl⟩)
    · exact Or.inr (ih h)

theorem pair_mem_combos2_range (n i j : Nat) (hij : i < j) (hj : j < n) :
    (i, j) ∈ combos2 (List.range n) := by
  induction n with
  | zero => omega
  | succ m ih =>
    rw [List.range_succ]
    by_cases hjm : j < m
    · exact combos2_append_right _ _ _ (ih hjm)
    · have hj' : j = m := by omega
      subst hj'
      exact combos2_mem_last (List.range j) i j (List.mem_range.mpr hij)

/-! ### The labeled grouping (neo4j.py lines 211-219) -/

/-- The per-position labels of a metarels list: each step's source label plus
the final step's target label (neo4j.py lines 212-213). -/
def labelsOf (metarels : List Metarel) : List String :=
  metarels.map (·.source_label) ++ [(metarels.getLastD default).target_label]

/-- Python `label_to_nodes.setdefault(label, list()).append(i)`
(neo4j.py line 216). -/
def setdefaultAppendN (acc : List (String × List Nat)) (label : String) (i : Nat) :
    List (String × List Nat) :=
  if acc.any (fun p => p.1 = label) then
    acc.map (fun p => if p.1 = label then (p.1, p.2 ++ [i]) else p)
  else acc ++ [(label, [i])]

/-- The grouping of positions by label (neo4j.py lines 214-216). -/
def label_to_nodes (labels : List String) : List (String × List Nat) :=
  labels.enum.foldl (fun acc q => setdefaultAppendN acc q.2 q.1) []

/-- The pairs emitted in `labeled` mode (neo4j.py lines 217-219). -/
def labeledPairs (metarels : List Metarel) : List (Nat × Nat) :=
  ((label_to_nodes (labelsOf metarels)).map (fun p => combos2 p.2)).flatten

/-- The pairs emitted in `expanded` mode (neo4j.py line 209). -/
def expandedPairs (metarels : List Metarel) : List (Nat × Nat) :=
  combos2 (List.range (metarels.length + 1))

theorem labelsOf_length (metarels : List Metarel) :
    (labelsOf metarels).length = metarels.length + 1 := by
  simp [labelsOf]

/-- Invariant of the grouping fold: every recorded position carries its own
label as group key, positions are below the bound and strictly ascending
within each group, and group keys are pairwise distinct. -/
def GroupsOK (labels : List String) (bound : Nat)
    (acc : List (String × List Nat)) : Prop :=
  (∀ p ∈ acc, ∀ j ∈ p.2, labels.getD j "" = p.1 ∧ j < labels.length ∧ j < bound) ∧
  (∀ p ∈ acc, p.2.Pairwise (· < ·)) ∧
  (acc.map Prod.fst).Nodup

theorem groupsOK_step (labels : List String) (bound : Nat)
    (acc : List (String × List Nat)) (lab : String) (i : Nat)
    (hacc : GroupsOK labels bound acc)
    (hlab : labels.getD i "" = lab) (hilen : i < labels.length)
    (hbound : bound ≤ i) :
    GroupsOK labels (i + 1) (setdefaultAppendN acc lab i) := by
  obtain ⟨h1, h2, h3⟩ := hacc
  unfold setdefaultAppendN
  by_cases hany : acc.any (fun p => decide (p.1 = lab))
  · rw [if_pos hany]
    refine ⟨?_, ?_, ?_⟩
    · intro p hp j hj
      obtain ⟨q, hq, hqp⟩ := List.mem_map.mp hp
      by_cases hql : q.1 = lab
      · rw [if_pos hql] at hqp
        subst hqp
        rcases List.mem_append.mp hj with hjold | hjnew
        · obtain ⟨a, b, c⟩ := h1 q hq j hjold
          exact ⟨a, b, by omega⟩
        · have hji : j = i := by simpa using hjnew
          subst hji
          exact ⟨hlab.trans hql.symm, hilen, by omega⟩
      · rw [if_neg hql] at hqp
        subst hqp
        obtain ⟨a, b, c⟩ := h1 q hq j hj
        exact ⟨a, b, by omega⟩
    · intro p hp
      obtain ⟨q, hq, hqp⟩ := List.mem_map.mp hp
      by_cases hql : q.1 = lab
      · rw [if_pos hql] at hqp
        subst hqp
        rw [List.pairwise_append]
        refine ⟨h2 q hq, List.pairwise_singleton _ _, ?_⟩
        intro a ha b hb
        have hbi : b = i := by simpa using hb
        have := (h1 q hq a ha).2.2
        omega
      · rw [if_neg hql] at hqp
        subst hqp
        exact h2 q hq
    · have hfst : ((acc.map fun p => if p.1 = lab then (p.1, p.2 ++ [i]) else p).map
          Prod.fst) = acc.map Prod.fst := by
        rw [List.map_map]
        apply List.map_congr_left
        intro p _
        by_cases hql : p.1 = lab
        · rw [Function.comp_apply, if_pos hql]
        · rw [Function.comp_apply, if_neg hql]
      rw [hfst]
      exact h3
  · rw [if_neg hany]
    have hnotin : lab ∉ acc.map Prod.fst := by
      intro hmem
      obtain ⟨q, hq, hql⟩ := List.mem_map.mp hmem
      exact hany (List.any_eq_true.mpr ⟨q, hq, decide_eq_true hql⟩)
    refine ⟨?_, ?_, ?_⟩
    · intro p hp j hj
      rcases List.mem_append.mp hp with hpold | hpnew
      · obtain ⟨a, b, c⟩ := h1 p hpold j hj
        exact ⟨a, b, by omega⟩
      · have hpe : p = (lab, [i]) := by simpa using hpnew
        subst hpe
        have hji : j = i := by simpa using hj
        subst hji
        exact ⟨hlab, hilen, by omega⟩
    · intro p hp
      rcases List.mem_append.mp hp with hpold | hpnew
      · exact h2 p hpold
      · have hpe : p = (lab, [i]) := by simpa using hpnew
        subst hpe
        exact List.pairwise_singleton _ _
    · rw [List.map_append, List.nodup_append]
      refine ⟨h3, by simp, ?_⟩
      intro a ha hb
      have : a = lab := by simpa using hb
      exact hnotin (this ▸ ha)

theorem enumFrom_pairwise {α : Type} (xs : List α) :
    ∀ n, (List.enumFrom n xs).Pairwise (fun a b => a.1 < b.1) := by
  induction xs with
  | nil => intro n; exact List.Pairwise.nil
  | cons x xs ih =>
    intro n
    rw [List.enumFrom_cons]
    rw [List.pairwise_cons]
    refine ⟨?_, ih (n + 1)⟩
    intro b hb
    obtain ⟨i, y⟩ := b
    have := List.mem_enumFrom hb
    simp only []
    omega

theorem groupsOK_fold (labels : List String) :
    ∀ (l : List (Nat × String)) (acc : List (String × List Nat)) (bound : Nat),
    (∀ q ∈ l, labels.getD q.1 "" = q.2 ∧ q.1 < labels.length ∧ bound ≤ q.1) →
    l.Pairwise (fun a b => a.1 < b.1) →
    GroupsOK labels bound acc →
    ∃ b', GroupsOK labels b'
      (l.foldl (fun acc q => setdefaultAppendN acc q.2 q.1) acc) := by
  intro l
  induction l with
  | nil =>
    intro acc bound _ _ h
    exact ⟨bound, h⟩
  | cons q l ih =>
    intro acc bound hq hpw hacc
    obtain ⟨hlab, hlen, hb⟩ := hq q (by simp)
    have hstep := groupsOK_step labels bound acc q.2 q.1 hacc hlab hlen hb
    rw [List.foldl_cons]
    apply ih _ (q.1 + 1)
    · intro r hr
      obtain ⟨h1', h2', _⟩ := hq r (by simp [hr])
      have : q.1 < r.1 := (List.pairwise_cons.mp hpw).1 r hr
      exact ⟨h1', h2', by omega⟩
    · exact (List.pairwise_cons.mp hpw).2
    · exact hstep

theorem label_to_nodes_ok (labels : List String) :
    ∃ b, GroupsOK labels b (label_to_nodes labels) := by
  unfold label_to_nodes
  apply groupsOK_fold labels labels.enum [] 0
  · intro q hq
    obtain ⟨i, x⟩ := q
    have h := List.mem_enumFrom (show (i, x) ∈ List.enumFrom 0 labels from hq)
    obtain ⟨_, hlt, hx⟩ := h
    have hlt' : i < labels.length := by omega
    refine ⟨?_, hlt', Nat.zero_le i⟩
    rw [List.getD_eq_getElem labels "" hlt']
    simp only [Nat.sub_zero] at hx
    exact hx.symm
  · exact enumFrom_pairwise labels 0
  · exact ⟨fun p hp => absurd hp (List.not_mem_nil p),
      fun p hp => absurd hp (List.not_mem_nil p), List.nodup_nil⟩

/-! ### Properties of the labeled pairs -/

theorem labeledPairs_mem (metarels : List Metarel) (x : Nat × Nat)
    (h : x ∈ labeledPairs metarels) :
    x.1 < x.2 ∧ x.2 < (labelsOf metarels).length ∧
      (labelsOf metarels).getD x.1 "" = (labelsOf metarels).getD x.2 "" := by
  obtain ⟨b, hg1, hg2, _⟩ := label_to_nodes_ok (labelsOf metarels)
  unfold labeledPairs at h
  obtain ⟨l, hl, hx⟩ := List.mem_flatten.mp h
  obtain ⟨p, hp, rfl⟩ := List.mem_map.mp hl
  have hlt : x.1 < x.2 := combos2_rel (· < ·) p.2 (hg2 p hp) x hx
  obtain ⟨hm1, hm2⟩ := combos2_mem p.2 x hx
  obtain ⟨ha1, _, _⟩ := hg1 p hp x.1 hm1
  obtain ⟨ha2, hb2, _⟩ := hg1 p hp x.2 hm2
  exact ⟨hlt, hb2, ha1.trans ha2.symm⟩

theorem labeledPairs_nodup (metarels : List Metarel) :
    (labeledPairs metarels).Nodup := by
  obtain ⟨b, hg1, hg2, hg3⟩ := label_to_nodes_ok (labelsOf metarels)
  unfold labeledPairs
  rw [List.nodup_flatten]
  constructor
  · intro l hl
    obtain ⟨p, hp, rfl⟩ := List.mem_map.mp hl
    exact combos2_nodup p.2 ((hg2 p hp).imp fun h => Nat.ne_of_lt h)
  · rw [List.pairwise_map]
    have hkeys : (label_to_nodes (labelsOf metarels)).Pairwise
        (fun p q => p.1 ≠ q.1) := by
      rw [← List.pairwise_map (f := Prod.fst)]
      exact hg3
    refine hkeys.imp_of_mem ?_
    intro p q hp hq hne
    intro a hap haq
    obtain ⟨ha1, _⟩ := combos2_mem p.2 a hap
    obtain ⟨ha2, _⟩ := combos2_mem q.2 a haq
    have e1 := (hg1 p hp a.1 ha1).1
    have e2 := (hg1 q hq a.1 ha2).1
    exact hne (e1.symm.trans e2)

theorem labeledPairs_subset (metarels : List Metarel) (x : Nat × Nat)
    (h : x ∈ labeledPairs metarels) : x ∈ expandedPairs metarels := by
  obtain ⟨h1, h2, _⟩ := labeledPairs_mem metarels x h
  rw [labelsOf_length] at h2
  have := pair_mem_combos2_range (metarels.length + 1) x.1 x.2 h1 h2
  exact this

theorem expandedPairs_length (metarels : List Metarel) :
    (expandedPairs metarels).length = Nat.choose (metarels.length + 1) 2 := by
  unfold expandedPairs
  rw [combos2_length, List.length_range]

theorem labeledPairs_length_le (metarels : List Metarel) :
    (labeledPairs metarels).length ≤ Nat.choose (metarels.length + 1) 2 := by
  rw [← expandedPairs_length]
  exact (List.subperm_of_subset (labeledPairs_nodup metarels)
    (fun x hx => labeledPairs_subset metarels x hx)).length_le

theorem labeledPairs_length_lt (metarels : List Metarel) (i j : Nat)
    (hij : i < j) (hj : j ≤ metarels.length)
    (hne : (labelsOf metarels).getD i "" ≠ (labelsOf metarels).getD j "") :
    (labeledPairs metarels).length < Nat.choose (metarels.length + 1) 2 := by
  have hmem : (i, j) ∈ expandedPairs metarels :=
    pair_mem_combos2_range (metarels.length + 1) i j hij (by omega)
  have hnot : (i, j) ∉ labeledPairs metarels := by
    intro h
    exact hne (labeledPairs_mem metarels (i, j) h).2.2
  have hcons : ((i, j) :: labeledPairs metarels).Nodup :=
    List.nodup_cons.mpr ⟨hnot, labeledPairs_nodup metarels⟩
  have hsub : ((i, j) :: labeledPairs metarels) ⊆ expandedPairs metarels := by
    intro y hy
    rcases List.mem_cons.mp hy with rfl | hy'
    · exact hmem
    · exact labeledPairs_subset metarels y hy'
  have := (List.subperm_of_subset hcons hsub).length_le
  rw [List.length_cons] at this
  rw [← expandedPairs_length]
  omega

theorem labeledPairs_nil_of_nodup (metarels : List Metarel)
    (h : (labelsOf metarels).Nodup) : labeledPairs metarels = [] := by
  rw [List.eq_nil_iff_forall_not_mem]
  intro x hx
  obtain ⟨h1, h2, h3⟩ := labeledPairs_mem metarels x hx
  have hx1 : x.1 < (labelsOf metarels).length := by omega
  rw [List.getD_eq_getElem _ "" hx1, List.getD_eq_getElem _ "" h2] at h3
  have hinj := List.nodup_iff_injective_get.mp h
  have : (⟨x.1, hx1⟩ : Fin (labelsOf metarels).length) = ⟨x.2, h2⟩ := by
    apply hinj
    simpa [List.get_eq_getElem] using h3
  have : x.1 = x.2 := congrArg Fin.val this
  omega

/-! ### construct_dwpc_query (neo4j.py lines 143-245) -/

/-- Python `sep.join(parts)`. -/
def joinSep (sep : String) : List String → String
  | [] => ""
  | [s] => s
  | s :: rest => s ++ sep ++ joinSep sep rest

/-- Embedding of `format_expanded_clause` (neo4j.py lines 247-255). -/
def format_expanded_clause (pairs : List (Nat × Nat)) : String :=
  if pairs.isEmpty then ""
  else "\nAND NOT (" ++
    joinSep " OR " (pairs.map (fun p =>
      "n" ++ toString p.1 ++ " = n" ++ toString p.2)) ++ ")"

/-- The constant `nested` uniqueness clause (neo4j.py line 207). -/
def nested_clause : String :=
  "\nAND ALL (x IN nodes(paths) WHERE size(filter(z IN nodes(paths) WHERE z = x)) = 1)"

/-- The Python value of the `unique_nodes` keyword: a bool or a string. -/
inductive UniqueNodes
  | bool (b : Bool)
  | str (s : String)
deriving DecidableEq

/-- The four-way uniqueness dispatch of `construct_dwpc_query`
(neo4j.py lines 205-223); the final `assert unique_nodes is False` becomes
the unsupported-mode error. -/
def unique_nodes_clause (metarels : List Metarel) (unique_nodes : UniqueNodes) :
    Except CompileError String :=
  if unique_nodes = .bool true ∨ unique_nodes = .str "nested" then
    .ok nested_clause
  else if unique_nodes = .str "expanded" then
    .ok (format_expanded_clause (expandedPairs metarels))
  else if unique_nodes = .str "labeled" then
    .ok (format_expanded_clause (labeledPairs metarels))
  else if unique_nodes = .bool false then .ok ""
  else .error .unsupportedMode

/-- One step's two degree fragments (neo4j.py lines 185-189). -/
def degreeSeg (i : Nat) (m : Metarel) : String :=
  "size((n" ++ toString i ++ ")" ++ dir0 m.direction ++ "[:" ++ m.rel_type ++
    "]" ++ dir1 m.direction ++ "()),\nsize(()" ++ dir0 m.direction ++ "[:" ++
    m.rel_type ++ "]" ++ dir1 m.direction ++ "(n" ++ toString (i + 1) ++ "))"

/-- The joined degree query (neo4j.py lines 174-190). -/
def degree_query (metarels : List Metarel) : String :=
  joinSep ",\n" (metarels.enum.map (fun p => degreeSeg p.1 p.2))

/-- The optional `USING INDEX` clauses (neo4j.py lines 192-203); the
`usingFlag` argument is the Python parameter named `using`. -/
def using_query (metarels : List Metarel) (property : String)
    (usingFlag : Bool) : String :=
  if usingFlag then
    "USING INDEX n0:" ++ (metarels.headD default).source_label ++ "(" ++
      property ++ ")\nUSING INDEX n" ++ toString metarels.length ++ ":" ++
      (metarels.getLastD default).target_label ++ "(" ++ property ++ ")\n"
  else ""

/-- The final query text assembled from the fragments (neo4j.py lines
226-243).  The Python braces emitted for the `source`, `target` and `w`
placeholders are written with their character codes. -/
def assembled_query (metarels : List Metarel) (property : String)
    (usingFlag : Bool) (unq : String) : String :=
  "MATCH paths = " ++ cypher_path metarels ++ "\n" ++
    using_query metarels property usingFlag ++
    "WHERE n0." ++ property ++ " = \x7b source \x7d\nAND n" ++
    toString metarels.length ++ "." ++ property ++ " = \x7b target \x7d" ++
    unq ++ "\nWITH\n[\n" ++ degree_query metarels ++
    "\n] AS degrees, paths\nRETURN\ncount(paths) AS PC,\n" ++
    "sum(reduce(pdp = 1.0, d in degrees| pdp * d ^ -\x7b w \x7d)) AS DWPC"

/-- Embedding of `construct_dwpc_query` (neo4j.py lines 143-245) on a
metarels list. -/
def construct_dwpc_query (metarels : List Metarel) (property : String)
    (usingFlag : Bool) (unique_nodes : UniqueNodes) :
    Except CompileError String :=
  match unique_nodes_clause metarels unique_nodes with
  | .error e => .error e
  | .ok unq => .ok (assembled_query metarels property usingFlag unq)

theorem construct_ok_of_clause (metarels : List Metarel) (property : String)
    (usingFlag : Bool) (u : UniqueNodes) (c : String)
    (h : unique_nodes_clause metarels u = .ok c) :
    construct_dwpc_query metarels property usingFlag u =
      .ok (assembled_query metarels property usingFlag c) := by
  unfold construct_dwpc_query
  rw [h]

/-- The uniqueness-mode values the dispatch recognizes: both booleans
(`False` is mode none, `True` mode nested) and the strings `nested`,
`expanded`, `labeled`. -/
def recognizedMode (u : UniqueNodes) : Bool :=
  match u with
  | .bool _ => true
  | .str s => decide (s = "nested" ∨ s = "expanded" ∨ s = "labeled")

/-- Clause counts per uniqueness mode: `expanded` emits exactly
`C(L+1, 2)` pairwise clauses, `labeled` at most that many and strictly fewer
as soon as two positions carry different labels, and the `nested` clause is
one fixed clause independent of the metapath. -/
theorem uniqueness_clause_counts (metarels : List Metarel) :
    (expandedPairs metarels).length = Nat.choose (metarels.length + 1) 2 ∧
    (labeledPairs metarels).length ≤ Nat.choose (metarels.length + 1) 2 ∧
    (∀ i j, i < j → j ≤ metarels.length →
      (labelsOf metarels).getD i "" ≠ (labelsOf metarels).getD j "" →
      (labeledPairs metarels).length < Nat.choose (metarels.length + 1) 2) ∧
    (∀ metarels' : List Metarel,
      unique_nodes_clause metarels (.str "nested") =
        unique_nodes_clause metarels' (.str "nested")) ∧
    unique_nodes_clause metarels (.str "expanded") =
      .ok (format_expanded_clause (expandedPairs metarels)) ∧
    unique_nodes_clause metarels (.str "labeled") =
      .ok (format_expanded_clause (labeledPairs metarels)) := by
  refine ⟨expandedPairs_length metarels, labeledPairs_length_le metarels,
    ?_, ?_, ?_, ?_⟩
  · intro i j hij hj hne
    exact labeledPairs_length_lt metarels i j hij hj hne
  · intro metarels'
    rfl
  · unfold unique_nodes_clause
    rw [if_neg (by decide), if_pos rfl]
  · unfold unique_nodes_clause
    rw [if_neg (by decide), if_neg (by decide), if_pos rfl]

/-- Witness for `uniqueness_clause_counts`: on the two-step
Gene-Gene-Disease metarels, `expanded` yields 3 pairs, `labeled` yields
strictly fewer (positions 0 and 2 have different labels), and the nested
clause is the shared constant. -/
theorem uniqueness_clause_counts_witness :
    (expandedPairs [⟨"Gene", "Gene", "INTERACTS_i", "forward"⟩,
        ⟨"Gene", "Disease", "ASSOCIATES_a", "forward"⟩]).length =
      Nat.choose 3 2 ∧
    (labeledPairs [⟨"Gene", "Gene", "INTERACTS_i", "forward"⟩,
        ⟨"Gene", "Disease", "ASSOCIATES_a", "forward"⟩]).length <
      Nat.choose 3 2 := by
  constructor
  · exact (uniqueness_clause_counts _).1
  · exact (uniqueness_clause_counts
      [⟨"Gene", "Gene", "INTERACTS_i", "forward"⟩,
       ⟨"Gene", "Disease", "ASSOCIATES_a", "forward"⟩]).2.2.1 0 2
      (by decide) (by decide) (by decide)

/-- Unrecognized uniqueness-mode values make the compiler signal the
unsupported-mode error (Python's failing `assert`) with no query text;
recognized values never error. -/
theorem construct_dwpc_query_mode (metarels : List Metarel) (property : String)
    (usingFlag : Bool) (u : UniqueNodes) (_hne : metarels ≠ []) :
    (recognizedMode u = false →
      construct_dwpc_query metarels property usingFlag u =
        .error CompileError.unsupportedMode) ∧
    (recognizedMode u = true →
      ∃ q, construct_dwpc_query metarels property usingFlag u = .ok q) := by
  have hinj : ∀ a b : String, UniqueNodes.str a = UniqueNodes.str b → a = b :=
    fun a b h => by injection h
  constructor
  · intro hr
    cases u with
    | bool b => cases b <;> simp [recognizedMode] at hr
    | str s =>
      have hs : ¬(s = "nested" ∨ s = "expanded" ∨ s = "labeled") := by
        intro hc
        rw [recognizedMode, decide_eq_true hc] at hr
        cases hr
      unfold construct_dwpc_query unique_nodes_clause
      rw [if_neg (show ¬(UniqueNodes.str s = .bool true ∨
            UniqueNodes.str s = .str "nested") by
          intro hc
          rcases hc with hc | hc
          · exact UniqueNodes.noConfusion hc
          · exact hs (Or.inl (hinj _ _ hc))),
        if_neg (show ¬ UniqueNodes.str s = .str "expanded" from
          fun hc => hs (Or.inr (Or.inl (hinj _ _ hc)))),
        if_neg (show ¬ UniqueNodes.str s = .str "labeled" from
          fun hc => hs (Or.inr (Or.inr (hinj _ _ hc)))),
        if_neg (show ¬ UniqueNodes.str s = .bool false from
          fun hc => UniqueNodes.noConfusion hc)]
  · intro hr
    cases u with
    | bool b =>
      cases b with
      | false =>
        exact ⟨_, construct_ok_of_clause metarels property usingFlag _ "" (by
          unfold unique_nodes_clause
          rw [if_neg (by decide), if_neg (by decide), if_neg (by decide),
            if_pos rfl])⟩
      | true =>
        exact ⟨_, construct_ok_of_clause metarels property usingFlag _
          nested_clause (by
            unfold unique_nodes_clause
            rw [if_pos (Or.inl rfl)])⟩
    | str s =>
      have hs : s = "nested" ∨ s = "expanded" ∨ s = "labeled" := by
        rw [recognizedMode] at hr
        exact of_decide_eq_true hr
      rcases hs with rfl | rfl | rfl
      · exact ⟨_, construct_ok_of_clause metarels property usingFlag _
          nested_clause (by
            unfold unique_nodes_clause
            rw [if_pos (Or.inr rfl)])⟩
      · exact ⟨_, construct_ok_of_clause metarels property usingFlag _
          (format_expanded_clause (expandedPairs metarels)) (by
            unfold unique_nodes_clause
            rw [if_neg (by decide), if_pos rfl])⟩
      · exact ⟨_, construct_ok_of_clause metarels property usingFlag _
          (format_expanded_clause (labeledPairs metarels)) (by
            unfold unique_nodes_clause
            rw [if_neg (by decide), if_neg (by decide), if_pos rfl])⟩

/-- Witness for `construct_dwpc_query_mode`: the unrecognized string mode
`bogus` errors, the recognized string mode `expanded` compiles. -/
theorem construct_dwpc_query_mode_witness :
    construct_dwpc_query [⟨"Gene", "Disease", "ASSOCIATES_a", "forward"⟩]
      "name" true (.str "bogus") = .error CompileError.unsupportedMode ∧
    ∃ q, construct_dwpc_query [⟨"Gene", "Disease", "ASSOCIATES_a", "forward"⟩]
      "name" true (.str "expanded") = .ok q :=
  ⟨(construct_dwpc_query_mode [⟨"Gene", "Disease", "ASSOCIATES_a", "forward"⟩]
      "name" true (.str "bogus") (by decide)).1 (by decide),
   (construct_dwpc_query_mode [⟨"Gene", "Disease", "ASSOCIATES_a", "forward"⟩]
      "name" true (.str "expanded") (by decide)).2 (by decide)⟩

/-- When all node positions carry pairwise distinct labels, `labeled` mode
contributes an empty uniqueness clause, so the compiled query is byte-for-byte
the query compiled with no uniqueness constraint (`unique_nodes=False`). -/
theorem labeled_distinct_equals_none (metarels : List Metarel)
    (property : String) (usingFlag : Bool) (_hne : metarels ≠ [])
    (hdist : (labelsOf metarels).Nodup) :
    construct_dwpc_query metarels property usingFlag (.str "labeled") =
      construct_dwpc_query metarels property usingFlag (.bool false) := by
  have hlab : unique_nodes_clause metarels (.str "labeled") = .ok "" := by
    unfold unique_nodes_clause
    rw [if_neg (by decide), if_neg (by decide), if_pos rfl,
      labeledPairs_nil_of_nodup metarels hdist]
    rfl
  have hnone : unique_nodes_clause metarels (.bool false) = .ok "" := by
    unfold unique_nodes_clause
    rw [if_neg (by decide), if_neg (by decide), if_neg (by decide), if_pos rfl]
  unfold construct_dwpc_query
  rw [hlab, hnone]

/-- Witness for `labeled_distinct_equals_none` on a one-step Gene-Disease
metapath, whose two position labels differ. -/
theorem labeled_distinct_equals_none_witness :
    construct_dwpc_query [⟨"Gene", "Disease", "ASSOCIATES_a", "forward"⟩]
      "name" true (.str "labeled") =
    construct_dwpc_query [⟨"Gene", "Disease", "ASSOCIATES_a", "forward"⟩]
      "name" true (.bool false) :=
  labeled_distinct_equals_none [⟨"Gene", "Disease", "ASSOCIATES_a", "forward"⟩]
    "name" true (by decide) (by decide)

/-! ### validate_abbreviations (abbreviation.py lines 3-46) -/

/-- Python `str.isupper()` (ASCII model): at least one cased character and no
lowercase one. -/
def pyIsUpper (s : String) : Bool :=
  s.data.any (fun c => c.isUpper || c.isLower) && s.data.all (fun c => !c.isLower)

/-- Python `str.islower()` (ASCII model): at least one cased character and no
uppercase one. -/
def pyIsLower (s : String) : Bool :=
  s.data.any (fun c => c.isUpper || c.isLower) && s.data.all (fun c => !c.isUpper)

/-- A metanode as the validator reads it: its kind identifier and its
abbreviation `metanode.abbrev` (resolved through `hetio.hetnet`, outside
src, and carried as a field). -/
structure VNode where
  identifier : String
  abbr : String
deriving DecidableEq

/-- A metaedge as the validator reads it: its kind name, its core
abbreviation `metaedge.kind_abbrev`, and its fully-qualified abbreviation
`metaedge.get_abbrev()` (both resolved through `hetio.hetnet`, outside src,
and carried as fields). -/
structure VEdge where
  kind : String
  kind_abbrev : String
  full_abbrev : String
deriving DecidableEq

/-- The metagraph as the validator reads it: `get_nodes()`,
`get_edges(exclude_inverts=False)` and the `kind_to_abbrev` mapping. -/
structure VMetagraph where
  nodes : List VNode
  edges : List VEdge
  kind_to_abbrev : List (String × String)

/-- Embedding of `get_duplicates` (abbreviation.py lines 48-51): the set of
elements appearing more than once. -/
def get_duplicates (l : List String) : List String :=
  (l.filter (fun x => 2 ≤ l.count x)).dedup

/-- `set(metagraph.get_nodes())` (line 6). -/
def metanodesOf (mg : VMetagraph) : List VNode := mg.nodes.dedup

/-- `set(metagraph.get_edges(exclude_inverts=False))` (line 7). -/
def metaedgesOf (mg : VMetagraph) : List VEdge := mg.edges.dedup

/-- `{metanode.identifier for metanode in metanodes}` (line 10). -/
def metanodeKinds (mg : VMetagraph) : List String :=
  ((metanodesOf mg).map (fun n => n.identifier)).dedup

/-- `{metaedge.kind for metaedge in metaedges}` (line 11). -/
def metaedgeKinds (mg : VMetagraph) : List String :=
  ((metaedgesOf mg).map (fun e => e.kind)).dedup

/-- `metanode_kinds & metaedge_kinds` (line 12). -/
def duplicatedKinds (mg : VMetagraph) : List String :=
  (metanodeKinds mg).filter (fun k => k ∈ metaedgeKinds mg)

/-- The node-kind restriction of `kind_to_abbrev` (line 19). -/
def metanodeKindToAbbrev (mg : VMetagraph) : List (String × String) :=
  mg.kind_to_abbrev.filter (fun p => p.1 ∈ metanodeKinds mg)

/-- `get_duplicates(metanode_kind_to_abbrev.values())` (line 20). -/
def duplicatedMetanodeAbbrevs (mg : VMetagraph) : List String :=
  get_duplicates ((metanodeKindToAbbrev mg).map Prod.snd)

/-- `get_duplicates([metaedge.get_abbrev() ...])` (lines 40-41). -/
def duplicatedMetaedgeAbbrevs (mg : VMetagraph) : List String :=
  get_duplicates ((metaedgesOf mg).map (fun e => e.full_abbrev))

/-- Embedding of `validate_abbreviations` (abbreviation.py lines 3-46): the
`valid` flag starts true and each failed check overwrites it with false;
the printed diagnostics carry no data and are not modelled. -/
def validate_abbreviations (mg : VMetagraph) : Bool :=
  let valid0 := true
  let valid1 := if (duplicatedKinds mg).isEmpty = false then false else valid0
  let valid2 := if (duplicatedMetanodeAbbrevs mg).isEmpty = false then false
                else valid1
  let valid3 := if (metanodesOf mg).any (fun n => !(pyIsUpper n.abbr)) then false
                else valid2
  let valid4 := if (metaedgesOf mg).any (fun e => !(pyIsLower e.kind_abbrev))
                then false else valid3
  if (duplicatedMetaedgeAbbrevs mg).isEmpty = false then false else valid4

/-- The validator returns false exactly when at least one invariant check
fails — a node/edge kind-namespace collision, a duplicated node token, a
non-uppercase node token, a non-lowercase edge core token, or a duplicated
fully-qualified edge token — and returns true otherwise. -/
theorem validate_abbreviations_false_iff (mg : VMetagraph) :
    validate_abbreviations mg = false ↔
      ((duplicatedKinds mg) ≠ [] ∨
       (duplicatedMetanodeAbbrevs mg) ≠ [] ∨
       (∃ n ∈ metanodesOf mg, pyIsUpper n.abbr = false) ∨
       (∃ e ∈ metaedgesOf mg, pyIsLower e.kind_abbrev = false) ∨
       (duplicatedMetaedgeAbbrevs mg) ≠ []) := by
  unfold validate_abbreviations
  simp only [List.isEmpty_iff, List.any_eq_true, Bool.not_eq_true']
  by_cases h1 : duplicatedKinds mg = [] <;>
  by_cases h2 : duplicatedMetanodeAbbrevs mg = [] <;>
  by_cases h3 : ∃ n ∈ metanodesOf mg, pyIsUpper n.abbr = false <;>
  by_cases h4 : ∃ e ∈ metaedgesOf mg, pyIsLower e.kind_abbrev = false <;>
  by_cases h5 : duplicatedMetaedgeAbbrevs mg = [] <;>
  simp_all [decide_eq_false_iff_not, decide_eq_true_eq]

end Hetio
